import Mathlib

/-!
Verification development for the fitness-trainer retrieval and program core.

The definitions below are a shallow embedding of the Python sources:
* `src/handlers/rag.py` — the per-user 28-day program state machine
  (`handle_workout_complete`, `handle_get_workout`);
* `src/handlers/text.py` — profile completion (`handle_profile_input`);
* `src/data/fitness_rag.py` — plan cache, plan/warmup lookup, document add;
* `src/handlers/document_upload.py` — chunking and ingestion.

Python `dict`-shaped user profiles become a record; ChromaDB collections
become association lists keyed by id with the silent-miss `get` semantics;
Python string indexing/slicing is modelled on `List Char` with explicit
negative-index normalisation; fallible evaluation returns `Except`.
-/

namespace FitnessBot

/-! ## Program state machine (src/handlers/rag.py, src/handlers/text.py) -/

/-- Message kinds emitted by the workout handlers, abstracting the chat
replies of `handle_get_workout` / `handle_workout_complete`.  The `Bool` on
`plan` records which keyboard is attached (`true` = the day-28
`COMPLETE_KEYBOARD`, `false` = `WORKOUT_DONE_KEYBOARD`). -/
inductive BotMsg where
  | plan (week day : Nat) (finalKeyboard : Bool)
  | congrats (week day : Nat)
  | programComplete
  deriving DecidableEq, Repr

/-- The per-user program state: the fields of the `user_data[user_id]`
dictionary that the workout handlers read and write.  A completion-history
entry is `(week, day, completed_at)`; `last_workout` is
`(week, day, rendered text)`. -/
structure Profile where
  workout_day : Nat
  current_week : Nat
  in_workout : Bool
  workouts_completed : List (Nat × Nat × Nat)
  last_workout : Option (Nat × Nat × String)
  deriving DecidableEq, Repr

/-- State written by `handle_profile_input` once all required fields are
present: `workout_day = 1`, `current_week = 1`, `in_workout = False`,
`workouts_completed = []`. -/
def initProfile : Profile :=
  { workout_day := 1
    current_week := 1
    in_workout := false
    workouts_completed := []
    last_workout := none }

/-- `handle_workout_complete` (rag.py lines 142–198) for an existing profile.
`ts` stands for the externally supplied `datetime.now()` value.  Appends a
history record, clears `in_workout`, and advances day (and week when the old
day is a multiple of 7) only when `workout_day < 28`; otherwise emits the
program-completion message and leaves day/week unchanged. -/
def stepComplete (ts : Nat) (p : Profile) : Profile × BotMsg :=
  let d := p.workout_day
  let w := p.current_week
  let p1 := { p with
    workouts_completed := p.workouts_completed ++ [(w, d, ts)]
    in_workout := false }
  if d < 28 then
    ({ p1 with
        workout_day := d + 1
        current_week := if d % 7 = 0 then w + 1 else w },
      BotMsg.congrats w d)
  else
    (p1, BotMsg.programComplete)

/-- `handle_get_workout` (rag.py lines 79–139) for an existing profile.
`rendered` stands for the externally generated workout text.  Emits the
completion message when `workout_day > 28`; otherwise records
`last_workout`, sets `in_workout`, and emits the plan, with the final
keyboard exactly when `workout_day >= 28`. -/
def stepGetWorkout (rendered : String) (p : Profile) : Profile × BotMsg :=
  if p.workout_day > 28 then
    (p, BotMsg.programComplete)
  else
    ({ p with
        last_workout := some (p.current_week, p.workout_day, rendered)
        in_workout := true },
      BotMsg.plan p.current_week p.workout_day (decide (p.workout_day ≥ 28)))

/-- Events the claims quantify over: a profile-completion (which
re-initialises the program state) and a workout-completion carrying its
timestamp. -/
inductive Ev where
  | profileDone
  | complete (ts : Nat)
  deriving DecidableEq, Repr

/-- One event applied to the stored profile. -/
def stepEv (p : Profile) : Ev → Profile
  | Ev.profileDone => initProfile
  | Ev.complete ts => (stepComplete ts p).1

/-- A whole event sequence applied to the stored profile. -/
def runEv (p : Profile) (es : List Ev) : Profile :=
  es.foldl stepEv p

/-- Completion events processed since the most recent profile-completion. -/
def ccount (es : List Ev) : Nat :=
  es.foldl (fun n e => match e with | Ev.profileDone => 0 | Ev.complete _ => n + 1) 0

/-- The UserProgram invariants of spec §3/§4.6. -/
def progInv (p : Profile) : Prop :=
  p.current_week = (p.workout_day - 1) / 7 + 1 ∧
  1 ≤ p.workout_day ∧ p.workout_day ≤ 28 ∧
  1 ≤ p.current_week ∧ p.current_week ≤ 4

instance (p : Profile) : Decidable (progInv p) := by
  unfold progInv; infer_instance

/-- A concrete day-28 state used to exercise the completion transition. -/
def profileAtDay28 : Profile :=
  { workout_day := 28
    current_week := 4
    in_workout := true
    workouts_completed := []
    last_workout := none }

/-- A concrete ACTIVE state at day 7 of week 1. -/
def initWeekOneDaySeven : Profile :=
  { workout_day := 7
    current_week := 1
    in_workout := false
    workouts_completed := []
    last_workout := none }

/-! ## Canonical plan keys (src/data/fitness_rag.py)

`get_workout_plan` builds
`f"{gender}_{age_group.replace('-', '_')}_week{week}_day{day}"`.
Strings are modelled as `List Char`; `{week}` interpolation is decimal
rendering, modelled by `natDigits`. -/

/-- The decimal digit character for `n < 10` (Python's digit rendering). -/
def digitChar (n : Nat) : Char := Char.ofNat (48 + n)

/-- Fuel-indexed decimal rendering; the fuel only drives structural
recursion and is irrelevant once it exceeds the number. -/
def natDigitsF : Nat → Nat → List Char
  | 0, _ => []
  | fuel + 1, n =>
    if n < 10 then [digitChar n]
    else natDigitsF fuel (n / 10) ++ [digitChar (n % 10)]

/-- Decimal rendering of a natural number, as an f-string interpolates it. -/
def natDigits (n : Nat) : List Char := natDigitsF (n + 1) n

/-- Reads decimal digits back; inverse of `natDigits`. -/
def digitsVal (l : List Char) : Nat :=
  l.foldl (fun a c => a * 10 + (c.toNat - 48)) 0

/-- The gender vocabulary of the profile parser (src/handlers/text.py). -/
def gMale : List Char := ['m', 'a', 'l', 'e']

def gFemale : List Char := ['f', 'e', 'm', 'a', 'l', 'e']

def genders : List (List Char) := [gMale, gFemale]

/-- The age-group vocabulary computed by `handle_profile_input`. -/
def agU18 : List Char := ['u', 'n', 'd', 'e', 'r', '_', '1', '8']

def ag1830 : List Char := ['1', '8', '-', '3', '0']

def ag3045 : List Char := ['3', '0', '-', '4', '5']

def ag4560 : List Char := ['4', '5', '-', '6', '0']

def ag60p : List Char := ['6', '0', '+']

def ageGroups : List (List Char) := [agU18, ag1830, ag3045, ag4560, ag60p]

/-- Python `age_group.replace('-', '_')`. -/
def replaceDash (l : List Char) : List Char :=
  l.map fun c => if c = '-' then '_' else c

/-- The canonical plan key
`{gender}_{age_group.replace('-','_')}_week{week}_day{day}`. -/
def mkKeyL (g a : List Char) (w d : Nat) : List Char :=
  g ++ '_' :: (replaceDash a ++
    '_' :: 'w' :: 'e' :: 'e' :: 'k' :: (natDigits w ++
      '_' :: 'd' :: 'a' :: 'y' :: natDigits d))

/-! ## RAG retrieval core (src/data/fitness_rag.py) -/

/-- An exercise reference inside a plan (`{name, sets, reps}`). -/
structure ExRef where
  name : List Char
  sets : Nat
  reps : List Char
  deriving DecidableEq, Repr

/-- A full workout plan, as parsed from `workout_plans_full.json` and held
in `_plans_data_cache`: `category` is flattened into `gender`/`age_group`. -/
structure Plan where
  name : List Char
  gender : List Char
  age_group : List Char
  week : Nat
  day : Nat
  target_muscles : List (List Char)
  intensity_level : List Char
  exercises : List ExRef
  warmup : List (List Char)
  cooldown : List (List Char)
  deriving DecidableEq, Repr

/-- The condensed metadata `load_data` stores in the `workout_plans`
collection: key, gender, age_group, week, day, muscles, intensity_level —
and nothing else (in particular no exercises). -/
structure PlanMeta where
  key : List Char
  gender : List Char
  age_group : List Char
  week : Nat
  day : Nat
  muscles : List (List Char)
  intensity_level : List Char
  deriving DecidableEq, Repr

/-- The metadata record `load_data` builds for a plan (fitness_rag.py
lines 150–158). -/
def condenseMeta (k : List Char) (p : Plan) : PlanMeta :=
  { key := k
    gender := p.gender
    age_group := p.age_group
    week := p.week
    day := p.day
    muscles := p.target_muscles
    intensity_level := p.intensity_level }

/-- Metadata of the single warmup record (`{"type": ..., "duration": ...}`). -/
structure WarmupMeta where
  wtype : List Char
  duration : Nat
  deriving DecidableEq, Repr

/-- Source/filename/ordinal metadata attached to an ingested chunk. -/
structure DocMeta where
  source : List Char
  filename : List Char
  chunk_id : Nat
  deriving DecidableEq, Repr

/-- First-match association lookup: ChromaDB `get(ids=[k])` /
Python `dict` access, on a collection modelled as an id-keyed list. -/
def alookup {α : Type} (l : List (List Char × α)) (k : List Char) : Option α :=
  match l with
  | [] => none
  | (k', v) :: t => if k' = k then some v else alookup t k

/-- The in-memory/stored state of `FitnessRAGSystem` that the verified
operations touch: the full-plan cache, the `workout_plans` collection
(condensed metadata by id), the `warmup` collection (document text and
metadata by id), the `exercises` collection for ingested chunks, and
`len(self.documents)`. -/
structure RagState where
  plansCache : List (List Char × Plan)
  planStore : List (List Char × PlanMeta)
  warmupStore : List (List Char × (List Char × WarmupMeta))
  exStore : List (List Char × (List Char × Option DocMeta))
  docsCount : Nat
  deriving DecidableEq, Repr

def emptyRag : RagState :=
  { plansCache := []
    planStore := []
    warmupStore := []
    exStore := []
    docsCount := 0 }

/-- Result of `get_workout_plan`: either the full cached plan or the
degraded reconstruction from condensed store metadata. -/
inductive PlanResult where
  | full (p : Plan)
  | degraded (name : List Char) (week day : Nat)
      (target_muscles : List (List Char)) (intensity_level : List Char)
      (exercises : List ExRef) (warmup cooldown : List (List Char))
  deriving DecidableEq, Repr

/-- The degraded plan's `name` field, `f"Тренировка {week}.{day}"`. -/
def trainName (w d : Nat) : List Char :=
  ['Т', 'р', 'е', 'н', 'и', 'р', 'о', 'в', 'к', 'а', ' '] ++
    natDigits w ++ '.' :: natDigits d

/-- `get_workout_plan` (fitness_rag.py lines 187–215): build the canonical
key, try the cache, then the `workout_plans` collection (degraded
reconstruction with empty exercises/warmup/cooldown), else `None`.  It is
a pure read: it takes the state and returns only a result. -/
def getWorkoutPlan (st : RagState) (g a : List Char) (w d : Nat) :
    Option PlanResult :=
  match alookup st.plansCache (mkKeyL g a w d) with
  | some p => some (PlanResult.full p)
  | none =>
    match alookup st.planStore (mkKeyL g a w d) with
    | some m =>
      some (PlanResult.degraded (trainName w d) w d m.muscles
        m.intensity_level [] [] [])
    | none => none

/-- Every cache entry sits under the canonical key of its own plan, with
category fields drawn from the system's vocabulary — what `load_data`
produces from a well-formed `workout_plans_full.json`. -/
def cacheWellFormed (st : RagState) : Prop :=
  ∀ e ∈ st.plansCache,
    e.1 = mkKeyL e.2.gender e.2.age_group e.2.week e.2.day ∧
    e.2.gender ∈ genders ∧ e.2.age_group ∈ ageGroups

instance (st : RagState) : Decidable (cacheWellFormed st) := by
  unfold cacheWellFormed; infer_instance

/-- A one-plan source entry for `male`, age 18–30, week 1, day 1. -/
def samplePlan : Plan :=
  { name := ['P', '1']
    gender := gMale
    age_group := ag1830
    week := 1
    day := 1
    target_muscles := [['c', 'h', 'e', 's', 't']]
    intensity_level := ['l', 'o', 'w']
    exercises := [{ name := ['p', 'u', 's', 'h'], sets := 3, reps := ['1', '0'] }]
    warmup := []
    cooldown := [] }

/-- A state as produced by loading the one-plan source. -/
def sampleState : RagState :=
  { plansCache := [(mkKeyL gMale ag1830 1 1, samplePlan)]
    planStore := [(mkKeyL gMale ag1830 1 1, condenseMeta (mkKeyL gMale ag1830 1 1) samplePlan)]
    warmupStore := []
    exStore := []
    docsCount := 0 }

/-! ## Corpus loading of plans (fitness_rag.py lines 122–171) -/

/-- The plan cache built by `load_data`: every source pair `(key, plan)`
is stored as-is (`self._plans_data_cache[plan_key] = plan`). -/
def loadPlansCache (src : List (List Char × Plan)) : List (List Char × Plan) :=
  src

/-- The `workout_plans` collection contents built by `load_data`: each
plan is stored under its source key with only the condensed metadata. -/
def loadPlansStore (src : List (List Char × Plan)) :
    List (List Char × PlanMeta) :=
  src.map fun e => (e.1, condenseMeta e.1 e.2)

/-! ## Warmup lookup (fitness_rag.py lines 173–176) -/

/-- The taxonomy of failures spec §7 names for the retrieval service. -/
inductive RagErr where
  | notFound
  | storeError
  deriving DecidableEq, Repr

/-- The shape ChromaDB `collection.get` returns: parallel lists of found
ids, documents, and metadatas.  Absent ids are silently skipped. -/
structure GetRes (α : Type) where
  ids : List (List Char)
  documents : List (List Char)
  metadatas : List α
  deriving DecidableEq, Repr

/-- The fixed id the warmup routine is stored under. -/
def warmupId : List Char := ['w', 'a', 'r', 'm', 'u', 'p', '_', '0', '0', '1']

/-- `get_warmup`: `self.collections["warmup"].get(ids=["warmup_001"])`,
returned as-is.  ChromaDB's `get` fails silently on a missing id (spec
§4.1), so the error channel is never used — a missing warmup yields an
empty result, not an error. -/
def getWarmup (st : RagState) : Except RagErr (GetRes WarmupMeta) :=
  match alookup st.warmupStore warmupId with
  | some (doc, meta) => Except.ok ⟨[warmupId], [doc], [meta]⟩
  | none => Except.ok ⟨[], [], []⟩

/-! ## add_document (fitness_rag.py lines 248–273) -/

/-- Python runtime errors distinguished by the embedding. -/
inductive PyErr where
  | typeError
  | indexError
  deriving DecidableEq, Repr

instance {ε α : Type} [DecidableEq ε] [DecidableEq α] :
    DecidableEq (Except ε α) := fun a b =>
  match a, b with
  | Except.error e1, Except.error e2 =>
    if h : e1 = e2 then Decidable.isTrue (by rw [h])
    else Decidable.isFalse (fun hh => h (by injection hh))
  | Except.error _, Except.ok _ => Decidable.isFalse (fun hh => Except.noConfusion hh)
  | Except.ok _, Except.error _ => Decidable.isFalse (fun hh => Except.noConfusion hh)
  | Except.ok a1, Except.ok a2 =>
    if h : a1 = a2 then Decidable.isTrue (by rw [h])
    else Decidable.isFalse (fun hh => h (by injection hh))

/-- Dynamically typed Python values that the modelled expressions touch. -/
inductive PyVal where
  | vint (n : Int)
  | vstr (s : List Char)
  deriving DecidableEq, Repr

/-- Python subscripting `v[:k]`: defined for `str`, a `TypeError` for
`int` ('int' object is not subscriptable). -/
def pySliceTake (v : PyVal) (k : Nat) : Except PyErr (List Char) :=
  match v with
  | PyVal.vstr s => Except.ok (s.take k)
  | PyVal.vint _ => Except.error PyErr.typeError

/-- `add_document`: embeds the text, computes
`doc_id = f"doc_{len(self.documents)}_{hash(text)[:8]}"`, adds the record
to the `exercises` collection and appends to `self.documents`, returning
the id.  `hash` is Python's opaque string hash, passed in as a parameter;
it returns an `int`, so the `[:8]` subscript is evaluated on an `int`. -/
def addDocument (hash : List Char → Int) (st : RagState) (text : List Char)
    (meta : Option DocMeta) : Except PyErr (RagState × List Char) :=
  match pySliceTake (PyVal.vint (hash text)) 8 with
  | Except.error e => Except.error e
  | Except.ok h8 =>
    Except.ok
      ({ st with
          exStore := st.exStore ++
            [(['d', 'o', 'c', '_'] ++ natDigits st.docsCount ++ '_' :: h8,
              (text, meta))]
          docsCount := st.docsCount + 1 },
        ['d', 'o', 'c', '_'] ++ natDigits st.docsCount ++ '_' :: h8)

/-! ## chunk_text (src/handlers/document_upload.py lines 74–112)

Python string positions can go negative in this loop
(`start = end - overlap`), so positions are `Int`: indexing follows
Python's negative-index rule and raises `IndexError` out of range, while
slicing clamps.  The `while` loop is modelled with explicit fuel: a `none`
result means the given fuel was exhausted, so a run that yields `none` for
every fuel never returns. -/

/-- Python `str.strip()` whitespace (ASCII fragment). -/
def isPySpace (c : Char) : Bool :=
  c = ' ' || c = '\t' || c = '\n' || c = '\r' || c = '\x0b' || c = '\x0c'

/-- Python `s.strip()`. -/
def pyStrip (l : List Char) : List Char :=
  ((l.dropWhile isPySpace).reverse.dropWhile isPySpace).reverse

/-- Python indexing `t[i]` (negative indices count from the end; out of
range is `none`, i.e. `IndexError`). -/
def pyIdx (t : List Char) (i : Int) : Option Char :=
  if 0 ≤ i then t.get? i.toNat
  else if 0 ≤ i + t.length then t.get? (i + t.length).toNat
  else none

/-- Python slice-bound normalisation for `t[a:b]`. -/
def sliceNorm (len : Nat) (i : Int) : Nat :=
  if i < 0 then (i + len).toNat else min i.toNat len

/-- Python slicing `t[a:b]`. -/
def pySlice (t : List Char) (a b : Int) : List Char :=
  (t.take (sliceNorm t.length b)).drop (sliceNorm t.length a)

/-- `while end > start and text[end] not in ".\n": end -= 1`, with fuel
driving the structural recursion (the caller passes exactly
`(e - st).toNat`). -/
def seekBackF (t : List Char) (st : Int) : Nat → Int → Except PyErr Int
  | 0, e => Except.ok e
  | f + 1, e =>
    if st < e then
      match pyIdx t e with
      | none => Except.error PyErr.indexError
      | some c =>
        if c = '.' ∨ c = '\n' then Except.ok e else seekBackF t st f (e - 1)
    else Except.ok e

def seekBack (t : List Char) (st e : Int) : Except PyErr Int :=
  seekBackF t st (e - st).toNat e

/-- `while end < len(text) and text[end] not in " \n": end += 1`, with
fuel exactly `(len - e).toNat`. -/
def seekFwdF (t : List Char) : Nat → Int → Except PyErr Int
  | 0, e => Except.ok e
  | f + 1, e =>
    if e < (t.length : Int) then
      match pyIdx t e with
      | none => Except.error PyErr.indexError
      | some c =>
        if c = ' ' ∨ c = '\n' then Except.ok e else seekFwdF t f (e + 1)
    else Except.ok e

def seekFwd (t : List Char) (e : Int) : Except PyErr Int :=
  seekFwdF t ((t.length : Int) - e).toNat e

/-- The boundary computation of one loop iteration: pull `end` backward
from `start + chunk_size` to the nearest `.`/newline if `end < len(text)`;
if that search bottoms out at `start`, reset and push forward to the
nearest space/newline. -/
def cutEnd (t : List Char) (size start : Int) : Except PyErr Int :=
  if start + size < (t.length : Int) then
    match seekBack t start (start + size) with
    | Except.error er => Except.error er
    | Except.ok e1 =>
      if e1 = start then seekFwd t (start + size) else Except.ok e1
  else Except.ok (start + size)

/-- One iteration of the `chunk_text` loop body: compute the cut, strip
the slice, append it when non-empty, and return the next start
`end - overlap` together with the accumulated chunks. -/
def chunkStep (t : List Char) (size ov start : Int) (acc : List (List Char)) :
    Except PyErr (Int × List (List Char)) :=
  match cutEnd t size start with
  | Except.error er => Except.error er
  | Except.ok e =>
    Except.ok (e - ov,
      if pyStrip (pySlice t start e) = [] then acc
      else acc ++ [pyStrip (pySlice t start e)])

/-- The `while start < len(text)` loop (the trailing
`if start >= len(text): break` coincides with the loop condition).  `none`
means the fuel ran out before the loop exited. -/
def chunkLoop (t : List Char) (size ov : Int) :
    Nat → Int → List (List Char) → Option (Except PyErr (List (List Char)))
  | 0, _, _ => none
  | fuel + 1, start, acc =>
    if start < (t.length : Int) then
      match chunkStep t size ov start acc with
      | Except.error er => some (Except.error er)
      | Except.ok (s', a') => chunkLoop t size ov fuel s' a'
    else some (Except.ok acc)

/-- `chunk_text(text, chunk_size, overlap)` with explicit fuel. -/
def chunkText (t : List Char) (size ov : Int) (fuel : Nat) :
    Option (Except PyErr (List (List Char))) :=
  chunkLoop t size ov fuel 0 []

/-- No `.`/newline delimiter anywhere in the backward-search window
`(st, st + size]`. -/
def noDelimWin (t : List Char) (st size : Int) : Prop :=
  ∀ i : Int, st < i → i ≤ st + size →
    ∀ c, pyIdx t i = some c → ¬(c = '.' ∨ c = '\n')

/-- The per-chunk guarantee: non-empty, a stripped slice of the text, and
within `chunk_size` except when the whole backward window held no
delimiter and the boundary was pushed forward to whitespace. -/
def chunkOK (t : List Char) (size : Int) (c : List Char) : Prop :=
  c ≠ [] ∧
  ∃ st e : Int, c = pyStrip (pySlice t st e) ∧
    (c.length ≤ size.toNat ∨
      (noDelimWin t st size ∧ seekFwd t (st + size) = Except.ok e))

/-- The input on which `chunk_text` loops forever with
`chunk_size = 2 > overlap = 1 ≥ 0`: the first cut lands on the `'.'` at
position 1, so the next start is `1 - 1 = 0` again. -/
def tLoop : List Char := ['a', '.', 'b', 'b']

/-! ## index_document (src/handlers/document_upload.py lines 140–182) -/

/-- `SUPPORTED_FORMATS = {".pdf", ".txt", ".md"}`. -/
def supportedFormats : List (List Char) :=
  [['.', 'p', 'd', 'f'], ['.', 't', 'x', 't'], ['.', 'm', 'd']]

/-- The final path component (`Path(p).name`). -/
def basenameOf (p : List Char) : List Char :=
  (p.reverse.takeWhile (fun c => c ≠ '/')).reverse

/-- `Path(name).suffix`: from the last `'.'` of the name, provided it is
neither the first nor the last character. -/
def suffixOf (name : List Char) : List Char :=
  if (name.reverse.takeWhile (fun c => c ≠ '.')).length + 1 < name.length ∧
      name.reverse.takeWhile (fun c => c ≠ '.') ≠ [] then
    '.' :: (name.reverse.takeWhile (fun c => c ≠ '.')).reverse
  else []

/-- `Path(file_path).suffix.lower()`. -/
def extOf (path : List Char) : List Char :=
  (suffixOf (basenameOf path)).map Char.toLower

/-- `load_document`: `None` for an unsupported extension; otherwise the
file's text, where the environment `fs` yields `none` when reading raises
(the `except` branch returns `None`). -/
def loadDocument (fs : List Char → Option (List Char)) (path : List Char) :
    Option (List Char) :=
  if extOf path ∈ supportedFormats then fs path else none

/-- The error payload of a failed ingestion result. -/
inductive IngErr where
  | loadFailed
  | pyExc (e : PyErr)
  deriving DecidableEq, Repr

/-- The dict `index_document` returns. -/
structure IngestResult where
  success : Bool
  filename : Option (List Char)
  chunks_indexed : Option Nat
  error : Option IngErr
  deriving DecidableEq, Repr

/-- The `for i, chunk in enumerate(prepared["chunks"]): rag.add_document(...)`
loop; stops at the first exception. -/
def ingestLoop (hash : List Char → Int) (source filename : List Char) :
    RagState → Nat → List (List Char) → Except PyErr RagState
  | st, _, [] => Except.ok st
  | st, i, c :: cs =>
    match addDocument hash st c (some ⟨source, filename, i⟩) with
    | Except.error e => Except.error e
    | Except.ok (st', _) => ingestLoop hash source filename st' (i + 1) cs

/-- `index_document`: prepare (load + chunk, outside the `try`), then the
guarded indexing loop.  `none` propagates `chunk_text`'s divergence; an
`Except.error` outcome is an exception escaping `index_document` itself
(`prepare_document_for_indexing` is not inside the `try` block); an
`Except.ok` is the structured result dict. -/
def indexDocument (hash : List Char → Int)
    (fs : List Char → Option (List Char)) (st0 : RagState)
    (path : List Char) (fuel : Nat) : Option (Except PyErr IngestResult) :=
  match loadDocument fs path with
  | none => some (Except.ok ⟨false, none, none, some IngErr.loadFailed⟩)
  | some text =>
    if text = [] then some (Except.ok ⟨false, none, none, some IngErr.loadFailed⟩)
    else
      match chunkText text 1000 100 fuel with
      | none => none
      | some (Except.error e) => some (Except.error e)
      | some (Except.ok chunks) =>
        some (Except.ok
          (match ingestLoop hash path (basenameOf path) st0 0 chunks with
            | Except.error e => ⟨false, none, none, some (IngErr.pyExc e)⟩
            | Except.ok _ => ⟨true, some (basenameOf path), some chunks.length, none⟩))

/-- A file system holding one readable text file `doc.txt` → "hello". -/
def fsHello (p : List Char) : Option (List Char) :=
  if p = ['d', 'o', 'c', '.', 't', 'x', 't'] then
    some ['h', 'e', 'l', 'l', 'o']
  else none

/-! ## Theorems -/

theorem stepComplete_day_lt (p : Profile) (ts : Nat) (h : p.workout_day < 28) :
    stepComplete ts p =
      ({ p with
          workouts_completed :=
            p.workouts_completed ++ [(p.current_week, p.workout_day, ts)]
          in_workout := false
          workout_day := p.workout_day + 1
          current_week :=
            if p.workout_day % 7 = 0 then p.current_week + 1 else p.current_week },
        BotMsg.congrats p.current_week p.workout_day) := by
  unfold stepComplete
  simp only [if_pos h]

theorem stepComplete_day_ge (p : Profile) (ts : Nat) (h : ¬ p.workout_day < 28) :
    stepComplete ts p =
      ({ p with
          workouts_completed :=
            p.workouts_completed ++ [(p.current_week, p.workout_day, ts)]
          in_workout := false },
        BotMsg.programComplete) := by
  unfold stepComplete
  simp only [if_neg h]

theorem invPreserved (p : Profile) (ts : Nat) (h : progInv p) :
    progInv (stepComplete ts p).1 := by
  obtain ⟨hw, h1, h2, h3, h4⟩ := h
  by_cases hd : p.workout_day < 28
  · rw [stepComplete_day_lt p ts hd]
    unfold progInv
    dsimp only
    by_cases h7 : p.workout_day % 7 = 0
    · simp only [if_pos h7]; omega
    · simp only [if_neg h7]; omega
  · rw [stepComplete_day_ge p ts hd]
    exact ⟨hw, h1, h2, h3, h4⟩

theorem lenPreserved (p : Profile) (ts : Nat) :
    (stepComplete ts p).1.workouts_completed.length =
      p.workouts_completed.length + 1 := by
  by_cases hd : p.workout_day < 28
  · rw [stepComplete_day_lt p ts hd]; simp
  · rw [stepComplete_day_ge p ts hd]; simp

theorem runEv_aux (es : List Ev) :
    ∀ p : Profile, progInv p →
      progInv (runEv p es) ∧
      (runEv p es).workouts_completed.length =
        es.foldl
          (fun n e => match e with | Ev.profileDone => 0 | Ev.complete _ => n + 1)
          p.workouts_completed.length := by
  induction es with
  | nil => intro p hp; exact ⟨hp, rfl⟩
  | cons e t ih =>
    intro p hp
    cases e with
    | profileDone =>
      have h0 : progInv initProfile := by decide
      have := ih initProfile h0
      simpa [runEv, stepEv, initProfile] using this
    | complete ts =>
      have h1 : progInv (stepComplete ts p).1 := invPreserved p ts hp
      have h2 := ih (stepComplete ts p).1 h1
      simpa [runEv, stepEv, lenPreserved] using h2

/-- C2 counterexample: starting from the concrete day-28 state
`profileAtDay28` (with `in_workout = true`), the completion event does emit
the completion message, but the stored `workout_day` stays at 28 — it is
not `> 28` — and a subsequent workout request emits a day-28 plan, not the
completion message. -/
theorem day28_complete_keeps_day :
    (stepComplete 0 profileAtDay28).2 = BotMsg.programComplete ∧
    (stepComplete 0 profileAtDay28).1.workout_day = 28 ∧
    ¬ (stepComplete 0 profileAtDay28).1.workout_day > 28 ∧
    (stepGetWorkout "w" (stepComplete 0 profileAtDay28).1).2 =
      BotMsg.plan 4 28 true ∧
    (stepGetWorkout "w" (stepComplete 0 profileAtDay28).1).2 ≠
      BotMsg.programComplete := by
  decide

/-- C2 (amended): from any state with `workout_day = 28`, a completion
event — regardless of `in_workout` — appends a history record, clears
`in_workout`, and emits the completion message instead of advancing; but
`workout_day` remains 28 (never becomes `> 28`), so a subsequent workout
request emits a day-28 plan (with the final keyboard) rather than the
completion message. -/
theorem day28_complete_behavior (p : Profile) (ts : Nat) (txt : String)
    (h : p.workout_day = 28) :
    (stepComplete ts p).2 = BotMsg.programComplete ∧
    (stepComplete ts p).1.workout_day = 28 ∧
    (stepComplete ts p).1.in_workout = false ∧
    (stepComplete ts p).1.workouts_completed =
      p.workouts_completed ++ [(p.current_week, 28, ts)] ∧
    (stepGetWorkout txt (stepComplete ts p).1).2 =
      BotMsg.plan p.current_week 28 true := by
  have hge : ¬ p.workout_day < 28 := by omega
  rw [stepComplete_day_ge p ts hge]
  unfold stepGetWorkout
  dsimp only
  rw [h]
  simp

/-- C2 witness: the amended theorem applied at the concrete state
`profileAtDay28`. -/
theorem day28_complete_behavior_witness :
    profileAtDay28.workout_day = 28 ∧
    ((stepComplete 7 profileAtDay28).2 = BotMsg.programComplete ∧
      (stepComplete 7 profileAtDay28).1.workout_day = 28 ∧
      (stepComplete 7 profileAtDay28).1.in_workout = false ∧
      (stepComplete 7 profileAtDay28).1.workouts_completed =
        profileAtDay28.workouts_completed ++ [(profileAtDay28.current_week, 28, 7)] ∧
      (stepGetWorkout "txt" (stepComplete 7 profileAtDay28).1).2 =
        BotMsg.plan profileAtDay28.current_week 28 true) :=
  ⟨by decide, day28_complete_behavior profileAtDay28 7 "txt" (by decide)⟩

/-- C3: from any ACTIVE state with `workout_day < 28` whose stored week is
consistent with its day, a completion event — whatever `in_workout` is —
appends exactly one history record, advances the day by one, stores
`current_week = ((new day - 1) / 7) + 1` (the week increments exactly when
the completed day is a multiple of 7), and clears `in_workout`. -/
theorem complete_advances (p : Profile) (ts : Nat)
    (h1 : p.workout_day < 28) (h2 : 1 ≤ p.workout_day)
    (h3 : p.current_week = (p.workout_day - 1) / 7 + 1) :
    (stepComplete ts p).1.workouts_completed =
      p.workouts_completed ++ [(p.current_week, p.workout_day, ts)] ∧
    (stepComplete ts p).1.workout_day = p.workout_day + 1 ∧
    (stepComplete ts p).1.current_week = (p.workout_day + 1 - 1) / 7 + 1 ∧
    ((stepComplete ts p).1.current_week = p.current_week + 1 ↔
      p.workout_day % 7 = 0) ∧
    (stepComplete ts p).1.in_workout = false := by
  rw [stepComplete_day_lt p ts h1]
  refine ⟨rfl, rfl, ?_, ?_, rfl⟩
  · dsimp only
    split <;> omega
  · dsimp only
    split <;> omega

/-- C3 witness: completing day 7 of week 1 yields day 8, week 2. -/
theorem complete_advances_witness :
    (initWeekOneDaySeven.workout_day < 28 ∧ 1 ≤ initWeekOneDaySeven.workout_day ∧
      initWeekOneDaySeven.current_week =
        (initWeekOneDaySeven.workout_day - 1) / 7 + 1) ∧
    ((stepComplete 9 initWeekOneDaySeven).1.workouts_completed =
        initWeekOneDaySeven.workouts_completed ++
          [(initWeekOneDaySeven.current_week, initWeekOneDaySeven.workout_day, 9)] ∧
      (stepComplete 9 initWeekOneDaySeven).1.workout_day =
        initWeekOneDaySeven.workout_day + 1 ∧
      (stepComplete 9 initWeekOneDaySeven).1.current_week =
        (initWeekOneDaySeven.workout_day + 1 - 1) / 7 + 1 ∧
      ((stepComplete 9 initWeekOneDaySeven).1.current_week =
          initWeekOneDaySeven.current_week + 1 ↔
        initWeekOneDaySeven.workout_day % 7 = 0) ∧
      (stepComplete 9 initWeekOneDaySeven).1.in_workout = false) :=
  ⟨⟨by decide, by decide, by decide⟩,
    complete_advances initWeekOneDaySeven 9 (by decide) (by decide) (by decide)⟩

/-- C4: starting from the profile-completion state (day 1, week 1,
`in_workout = false`, empty history), every sequence of profile-completion
and completion events keeps the UserProgram invariants: the history length
equals the number of completion events processed since the last
profile-completion, the stored week always equals
`((workout_day - 1) / 7) + 1` and stays within 1–4 (with the day within
1–28), and a completion event never decreases `workout_day`. -/
theorem program_invariants :
    (∀ es : List Ev,
      progInv (runEv initProfile es) ∧
      (runEv initProfile es).workouts_completed.length = ccount es) ∧
    (∀ (p : Profile) (ts : Nat), progInv p →
      p.workout_day ≤ (stepComplete ts p).1.workout_day) := by
  constructor
  · intro es
    have h := runEv_aux es initProfile (by decide)
    exact h
  · intro p ts hp
    by_cases hd : p.workout_day < 28
    · rw [stepComplete_day_lt p ts hd]; dsimp only; omega
    · rw [stepComplete_day_ge p ts hd]

/-- C4 witness: the invariant theorem applied to the concrete event
sequence "profile completion, then two workout completions", and the
monotonicity part applied at the initial state. -/
theorem program_invariants_witness :
    (progInv (runEv initProfile [Ev.complete 1, Ev.complete 2]) ∧
      (runEv initProfile [Ev.complete 1, Ev.complete 2]).workouts_completed.length =
        ccount [Ev.complete 1, Ev.complete 2]) ∧
    (progInv initProfile ∧
      initProfile.workout_day ≤ (stepComplete 5 initProfile).1.workout_day) :=
  ⟨program_invariants.1 [Ev.complete 1, Ev.complete 2],
    ⟨by decide, program_invariants.2 initProfile 5 (by decide)⟩⟩

theorem natDigitsF_congr :
    ∀ f1 f2 n : Nat, n < f1 → n < f2 → natDigitsF f1 n = natDigitsF f2 n := by
  intro f1
  induction f1 with
  | zero => intro f2 n h1; omega
  | succ f ih =>
    intro f2 n h1 h2
    cases f2 with
    | zero => omega
    | succ f' =>
      rw [natDigitsF, natDigitsF]
      split
      · rfl
      · rw [ih f' (n / 10) (by omega) (by omega)]

theorem natDigits_eq (n : Nat) :
    natDigits n =
      if n < 10 then [digitChar n]
      else natDigits (n / 10) ++ [digitChar (n % 10)] := by
  show natDigitsF (n + 1) n = _
  rw [natDigitsF]
  split
  · rfl
  · rw [natDigitsF_congr n (n / 10 + 1) (n / 10) (by omega) (by omega)]
    rfl

theorem digitChar_toNat (n : Nat) (h : n < 10) : (digitChar n).toNat = 48 + n := by
  interval_cases n <;> decide

theorem digitChar_ne_uscore (n : Nat) (h : n < 10) : digitChar n ≠ '_' := by
  interval_cases n <;> decide

theorem natDigits_no_uscore (n : Nat) : '_' ∉ natDigits n := by
  induction n using Nat.strong_induction_on with
  | _ n ih =>
    rw [natDigits_eq]
    split
    · intro hmem
      rw [List.mem_singleton] at hmem
      exact digitChar_ne_uscore n (by omega) hmem.symm
    · intro hmem
      rw [List.mem_append, List.mem_singleton] at hmem
      rcases hmem with hmem | hmem
      · exact ih (n / 10) (by omega) hmem
      · exact digitChar_ne_uscore (n % 10) (by omega) hmem.symm

theorem digitsVal_natDigits (n : Nat) : digitsVal (natDigits n) = n := by
  induction n using Nat.strong_induction_on with
  | _ n ih =>
    rw [natDigits_eq]
    split
    · simp [digitsVal, digitChar_toNat n (by omega)]
    · rw [digitsVal, List.foldl_append]
      have h1 := ih (n / 10) (by omega)
      rw [digitsVal] at h1
      rw [h1]
      simp [digitChar_toNat (n % 10) (by omega)]
      omega

theorem natDigits_inj {a b : Nat} (h : natDigits a = natDigits b) : a = b := by
  have := congrArg digitsVal h
  rwa [digitsVal_natDigits, digitsVal_natDigits] at this

/-- Splitting at the first underscore is unambiguous when neither prefix
contains one. -/
theorem uscore_split :
    ∀ xs ys u v : List Char, '_' ∉ xs → '_' ∉ ys →
      xs ++ '_' :: u = ys ++ '_' :: v → xs = ys ∧ u = v := by
  intro xs
  induction xs with
  | nil =>
    intro ys u v _ hy h
    cases ys with
    | nil => simpa using h
    | cons y t =>
      rw [List.nil_append, List.cons_append, List.cons.injEq] at h
      exact absurd (List.mem_cons_self y t) (h.1 ▸ hy)
  | cons x xt ih =>
    intro ys u v hx hy h
    cases ys with
    | nil =>
      rw [List.nil_append, List.cons_append, List.cons.injEq] at h
      exact absurd (List.mem_cons_self x xt) (h.1.symm ▸ hx)
    | cons y t =>
      rw [List.cons_append, List.cons_append, List.cons.injEq] at h
      obtain ⟨rfl, h2⟩ := h
      have hx' : '_' ∉ xt := fun hm => hx (List.mem_cons_of_mem _ hm)
      have hy' : '_' ∉ t := fun hm => hy (List.mem_cons_of_mem _ hm)
      obtain ⟨h3, h4⟩ := ih t u v hx' hy' h2
      exact ⟨by rw [h3], h4⟩

theorem weekday_inj {w d w' d' : Nat}
    (h : natDigits w ++ '_' :: 'd' :: 'a' :: 'y' :: natDigits d =
      natDigits w' ++ '_' :: 'd' :: 'a' :: 'y' :: natDigits d') :
    w = w' ∧ d = d' := by
  obtain ⟨h1, h2⟩ :=
    uscore_split _ _ _ _ (natDigits_no_uscore w) (natDigits_no_uscore w') h
  rw [List.cons.injEq, List.cons.injEq, List.cons.injEq] at h2
  exact ⟨natDigits_inj h1, natDigits_inj h2.2.2.2⟩

/-- On the category vocabulary actually used by the system, the canonical
key determines gender, age group, week and day. -/
theorem mkKeyL_inj {g g' a a' : List Char} {w d w' d' : Nat}
    (hg : g ∈ genders) (hg' : g' ∈ genders)
    (ha : a ∈ ageGroups) (ha' : a' ∈ ageGroups)
    (h : mkKeyL g a w d = mkKeyL g' a' w' d') :
    g = g' ∧ a = a' ∧ w = w' ∧ d = d' := by
  simp only [genders, List.mem_cons, List.mem_singleton, List.not_mem_nil,
    or_false] at hg hg'
  simp only [ageGroups, List.mem_cons, List.mem_singleton, List.not_mem_nil,
    or_false] at ha ha'
  rcases hg with rfl | rfl <;> rcases hg' with rfl | rfl <;>
    rcases ha with rfl | rfl | rfl | rfl | rfl <;>
    rcases ha' with rfl | rfl | rfl | rfl | rfl <;>
    simp only [mkKeyL, replaceDash, gMale, gFemale, agU18, ag1830, ag3045,
      ag4560, ag60p, List.map_cons, List.map_nil, List.cons_append,
      List.nil_append, List.cons.injEq, true_and, if_true, if_false,
      reduceIte] at h <;>
    first
      | (exact absurd h (by simp))
      | (refine ⟨rfl, rfl, ?_⟩; exact weekday_inj h)

theorem alookup_mem {α : Type} {l : List (List Char × α)} {k : List Char} {v : α}
    (h : alookup l k = some v) : (k, v) ∈ l := by
  induction l with
  | nil => simp [alookup] at h
  | cons e t ih =>
    rw [alookup] at h
    split at h
    · obtain ⟨k', v'⟩ := e
      simp only at *
      cases h
      subst ‹k' = k›
      exact List.mem_cons_self _ _
    · exact List.mem_cons_of_mem _ (ih h)

theorem alookup_of_mem {α : Type} {l : List (List Char × α)} {k : List Char} {v : α}
    (hnd : (l.map Prod.fst).Nodup) (h : (k, v) ∈ l) : alookup l k = some v := by
  induction l with
  | nil => simp at h
  | cons e t ih =>
    obtain ⟨k', v'⟩ := e
    rw [List.map_cons, List.nodup_cons] at hnd
    rcases List.mem_cons.mp h with h1 | h1
    · cases h1
      rw [alookup, if_pos rfl]
    · have hk : k' ≠ k := by
        intro hkk
        subst hkk
        exact hnd.1 (List.mem_map.mpr ⟨(k', v), h1, rfl⟩)
      rw [alookup, if_neg hk]
      exact ih hnd.2 h1

/-- C1: `get_workout_plan` computes the canonical key and (1) on a cache
hit returns the full cached plan — whose gender, age group, week and day
match the query whenever the cache is well-formed (the query ranging over
the system's category vocabulary) — (2) on a cache miss with a store hit
returns the degraded plan built from the condensed metadata with empty
exercises, warmup and cooldown, and (3) returns `none` when both miss.
The operation is a pure read (state in, result out), so repeated calls
with the same arguments are literally the same value and have no side
effects. -/
theorem getWorkoutPlan_spec (st : RagState) (g a : List Char) (w d : Nat)
    (hg : g ∈ genders) (ha : a ∈ ageGroups) (hwf : cacheWellFormed st) :
    (∀ p, alookup st.plansCache (mkKeyL g a w d) = some p →
      getWorkoutPlan st g a w d = some (PlanResult.full p) ∧
      p.gender = g ∧ p.age_group = a ∧ p.week = w ∧ p.day = d) ∧
    (alookup st.plansCache (mkKeyL g a w d) = none →
      ∀ m, alookup st.planStore (mkKeyL g a w d) = some m →
        getWorkoutPlan st g a w d = some (PlanResult.degraded (trainName w d)
          w d m.muscles m.intensity_level [] [] [])) ∧
    (alookup st.plansCache (mkKeyL g a w d) = none →
      alookup st.planStore (mkKeyL g a w d) = none →
      getWorkoutPlan st g a w d = none) := by
  refine ⟨?_, ?_, ?_⟩
  · intro p hp
    have hmem := alookup_mem hp
    obtain ⟨hkey, hpg, hpa⟩ := hwf _ hmem
    have hinj := mkKeyL_inj hpg hg hpa ha hkey.symm
    refine ⟨?_, hinj.1, hinj.2.1, hinj.2.2.1, hinj.2.2.2⟩
    unfold getWorkoutPlan
    rw [hp]
  · intro hc m hm
    unfold getWorkoutPlan
    rw [hc, hm]
  · intro hc hm
    unfold getWorkoutPlan
    rw [hc, hm]

/-- C1 witness: the lookup theorem applied at the concrete loaded state,
both for the hit (week 1, day 1) and the total miss (week 9, day 9). -/
theorem getWorkoutPlan_spec_witness :
    (gMale ∈ genders ∧ ag1830 ∈ ageGroups ∧ cacheWellFormed sampleState ∧
      alookup sampleState.plansCache (mkKeyL gMale ag1830 1 1) = some samplePlan ∧
      alookup sampleState.plansCache (mkKeyL gMale ag1830 9 9) = none ∧
      alookup sampleState.planStore (mkKeyL gMale ag1830 9 9) = none) ∧
    (getWorkoutPlan sampleState gMale ag1830 1 1 = some (PlanResult.full samplePlan) ∧
      samplePlan.gender = gMale ∧ samplePlan.age_group = ag1830 ∧
      samplePlan.week = 1 ∧ samplePlan.day = 1) ∧
    getWorkoutPlan sampleState gMale ag1830 9 9 = none :=
  ⟨⟨by decide, by decide, by decide, by decide, by decide, by decide⟩,
    (getWorkoutPlan_spec sampleState gMale ag1830 1 1 (by decide) (by decide)
        (by decide)).1 samplePlan (by decide),
    (getWorkoutPlan_spec sampleState gMale ag1830 9 9 (by decide) (by decide)
        (by decide)).2.2 (by decide) (by decide)⟩

/-- C9: after loading a source with distinct plan keys, every source key K
maps in the cache to the untouched full plan (exercises included), while
the `workout_plans` metadata stored under K is exactly the condensed
record (key, gender, age_group, week, day, muscles, intensity_level) —
which ignores the exercise list entirely, so the cache copy is lossless
and the store copy is lossy. -/
theorem load_lossless_lossy (src : List (List Char × Plan))
    (hnd : (src.map Prod.fst).Nodup) :
    ∀ e ∈ src,
      alookup (loadPlansCache src) e.1 = some e.2 ∧
      alookup (loadPlansStore src) e.1 = some (condenseMeta e.1 e.2) ∧
      ∀ es : List ExRef,
        condenseMeta e.1 { e.2 with exercises := es } = condenseMeta e.1 e.2 := by
  intro e he
  obtain ⟨k, p⟩ := e
  refine ⟨alookup_of_mem hnd he, ?_, fun es => rfl⟩
  have hmem : (k, condenseMeta k p) ∈ loadPlansStore src :=
    List.mem_map.mpr ⟨(k, p), he, rfl⟩
  have hnd' : ((loadPlansStore src).map Prod.fst).Nodup := by
    unfold loadPlansStore
    rw [List.map_map]
    exact hnd
  exact alookup_of_mem hnd' hmem

/-- C9 witness: the load theorem applied to the concrete one-plan source. -/
theorem load_lossless_lossy_witness :
    (([(mkKeyL gMale ag1830 1 1, samplePlan)].map
        (Prod.fst (α := List Char) (β := Plan))).Nodup ∧
      (mkKeyL gMale ag1830 1 1, samplePlan) ∈
        [(mkKeyL gMale ag1830 1 1, samplePlan)]) ∧
    (alookup (loadPlansCache [(mkKeyL gMale ag1830 1 1, samplePlan)])
        (mkKeyL gMale ag1830 1 1) = some samplePlan ∧
      alookup (loadPlansStore [(mkKeyL gMale ag1830 1 1, samplePlan)])
        (mkKeyL gMale ag1830 1 1) =
          some (condenseMeta (mkKeyL gMale ag1830 1 1) samplePlan) ∧
      ∀ es : List ExRef,
        condenseMeta (mkKeyL gMale ag1830 1 1)
            { samplePlan with exercises := es } =
          condenseMeta (mkKeyL gMale ag1830 1 1) samplePlan) :=
  ⟨⟨by decide, by decide⟩,
    load_lossless_lossy [(mkKeyL gMale ag1830 1 1, samplePlan)] (by decide)
      (mkKeyL gMale ag1830 1 1, samplePlan) (by decide)⟩

/-- C10 counterexample: on a state whose `warmup` collection was never
loaded (the empty state), `get_warmup` does not fail with `NotFoundError`
— it returns a normal, empty result. -/
theorem getWarmup_empty_no_error :
    getWarmup emptyRag = Except.ok ⟨[], [], []⟩ ∧
    ∀ e : RagErr, getWarmup emptyRag ≠ Except.error e := by
  constructor
  · rfl
  · intro e h
    cases h

/-- C10 (amended): whenever no record with id `warmup_001` exists in the
warmup collection, `get_warmup` returns a normal empty result (no ids,
documents or metadatas) — it never raises `NotFoundError`. -/
theorem getWarmup_missing (st : RagState)
    (h : alookup st.warmupStore warmupId = none) :
    getWarmup st = Except.ok ⟨[], [], []⟩ := by
  unfold getWarmup
  rw [h]

/-- C10 witness: the amended theorem applied at the empty state. -/
theorem getWarmup_missing_witness :
    alookup emptyRag.warmupStore warmupId = none ∧
    getWarmup emptyRag = Except.ok ⟨[], [], []⟩ :=
  ⟨by decide, getWarmup_missing emptyRag (by decide)⟩

/-- C8: for every hash function, state, input text and metadata,
`add_document` raises `TypeError` while computing the document id
(`hash(text)[:8]` subscripts an `int`), so it never returns a document id
and never adds a record to the `exercises` collection. -/
theorem addDocument_always_typeError (hash : List Char → Int) (st : RagState)
    (text : List Char) (meta : Option DocMeta) :
    addDocument hash st text meta = Except.error PyErr.typeError := rfl

theorem pySlice_length_le (t : List Char) (a b : Int) (hab : a ≤ b) :
    (pySlice t a b).length ≤ (b - a).toNat := by
  unfold pySlice sliceNorm
  simp only [List.length_drop, List.length_take, Nat.min_def]
  split_ifs <;> omega

theorem length_dropWhile_le (p : Char → Bool) (l : List Char) :
    (l.dropWhile p).length ≤ l.length := by
  induction l with
  | nil => simp
  | cons a t ih =>
    rw [List.dropWhile_cons]
    split
    · exact Nat.le_succ_of_le ih
    · simp

theorem pyStrip_length_le (l : List Char) : (pyStrip l).length ≤ l.length := by
  unfold pyStrip
  rw [List.length_reverse]
  calc ((l.dropWhile isPySpace).reverse.dropWhile isPySpace).length
      ≤ (l.dropWhile isPySpace).reverse.length := length_dropWhile_le _ _
    _ = (l.dropWhile isPySpace).length := List.length_reverse _
    _ ≤ l.length := length_dropWhile_le _ _

theorem dropWhile_dropWhile (p : Char → Bool) (l : List Char) :
    (l.dropWhile p).dropWhile p = l.dropWhile p := by
  induction l with
  | nil => simp
  | cons a t ih =>
    rw [List.dropWhile_cons]
    split
    · exact ih
    · rw [List.dropWhile_cons, if_neg ‹_›]

theorem head_of_dropWhile (p : Char → Bool) (l : List Char) :
    ∀ c, (l.dropWhile p).head? = some c → p c = false := by
  induction l with
  | nil => intro c h; simp at h
  | cons a t ih =>
    intro c h
    rw [List.dropWhile_cons] at h
    split at h
    · exact ih c h
    · rename_i hna
      rw [List.head?_cons, Option.some.injEq] at h
      subst h
      cases hpa : p a
      · rfl
      · exact absurd hpa hna

theorem dropWhile_is_tail (p : Char → Bool) (l : List Char) :
    ∃ u, l = u ++ l.dropWhile p := by
  induction l with
  | nil => exact ⟨[], rfl⟩
  | cons a t ih =>
    rw [List.dropWhile_cons]
    split
    · obtain ⟨u, hu⟩ := ih
      exact ⟨a :: u, by rw [List.cons_append, ← hu]⟩
    · exact ⟨[], rfl⟩

theorem pyStrip_head (l : List Char) :
    ∀ c, (pyStrip l).head? = some c → isPySpace c = false := by
  intro c h
  unfold pyStrip at h
  obtain ⟨u, hu⟩ := dropWhile_is_tail isPySpace (l.dropWhile isPySpace).reverse
  have hm : l.dropWhile isPySpace =
      ((l.dropWhile isPySpace).reverse.dropWhile isPySpace).reverse ++ u.reverse := by
    have := congrArg List.reverse hu
    rwa [List.reverse_reverse, List.reverse_append] at this
  rcases he : ((l.dropWhile isPySpace).reverse.dropWhile isPySpace).reverse with _ | ⟨x, xs⟩
  · rw [he] at h; simp at h
  · rw [he] at h
    rw [List.head?_cons, Option.some.injEq] at h
    subst h
    apply head_of_dropWhile isPySpace l
    rw [hm, he, List.cons_append, List.head?_cons]

theorem pyStrip_idem (l : List Char) : pyStrip (pyStrip l) = pyStrip l := by
  have h1 : (pyStrip l).dropWhile isPySpace = pyStrip l := by
    rcases he : pyStrip l with _ | ⟨x, xs⟩
    · simp
    · have hx : isPySpace x = false := by
        apply pyStrip_head l
        rw [he, List.head?_cons]
      rw [List.dropWhile_cons, if_neg (by simp [hx])]
  have h2 : pyStrip (pyStrip l) =
      (((pyStrip l).dropWhile isPySpace).reverse.dropWhile isPySpace).reverse := rfl
  rw [h2, h1]
  show (((l.dropWhile isPySpace).reverse.dropWhile
      isPySpace).reverse.reverse.dropWhile isPySpace).reverse = pyStrip l
  rw [List.reverse_reverse, dropWhile_dropWhile]
  rfl

theorem seekBackF_le (t : List Char) (st : Int) :
    ∀ (f : Nat) (e r : Int), seekBackF t st f e = Except.ok r → r ≤ e := by
  intro f
  induction f with
  | zero =>
    intro e r h
    rw [seekBackF, Except.ok.injEq] at h
    omega
  | succ f ih =>
    intro e r h
    rw [seekBackF] at h
    split at h
    · rcases hi : pyIdx t e with _ | c <;> rw [hi] at h <;> dsimp only at h
      · exact Except.noConfusion h
      · split at h
        · rw [Except.ok.injEq] at h; omega
        · have := ih (e - 1) r h; omega
    · rw [Except.ok.injEq] at h; omega

theorem seekBackF_ge (t : List Char) (st : Int) :
    ∀ (f : Nat) (e r : Int), st ≤ e → seekBackF t st f e = Except.ok r → st ≤ r := by
  intro f
  induction f with
  | zero =>
    intro e r he h
    rw [seekBackF, Except.ok.injEq] at h
    omega
  | succ f ih =>
    intro e r he h
    rw [seekBackF] at h
    split at h
    · rcases hi : pyIdx t e with _ | c <;> rw [hi] at h <;> dsimp only at h
      · exact Except.noConfusion h
      · split at h
        · rw [Except.ok.injEq] at h; omega
        · exact ih (e - 1) r (by omega) h
    · rw [Except.ok.injEq] at h; omega

theorem seekBackF_exhausted (t : List Char) (st : Int) :
    ∀ (f : Nat) (e : Int), (e - st).toNat ≤ f →
      seekBackF t st f e = Except.ok st →
      ∀ i : Int, st < i → i ≤ e →
        ∃ c, pyIdx t i = some c ∧ ¬(c = '.' ∨ c = '\n') := by
  intro f
  induction f with
  | zero =>
    intro e hf _ i h1 h2
    omega
  | succ f ih =>
    intro e hf hr i h1 h2
    rw [seekBackF] at hr
    split at hr
    · rcases hi : pyIdx t e with _ | c <;> rw [hi] at hr <;> dsimp only at hr
      · exact Except.noConfusion hr
      · split at hr
        · rw [Except.ok.injEq] at hr; omega
        · rcases Int.lt_or_le i e with hie | hie
          · exact ih (e - 1) (by omega) hr i h1 (by omega)
          · have : i = e := by omega
            subst this
            exact ⟨c, hi, ‹_›⟩
    · rw [Except.ok.injEq] at hr; omega

theorem seekBack_exhausted (t : List Char) (st e : Int)
    (hr : seekBack t st e = Except.ok st) :
    ∀ i : Int, st < i → i ≤ e →
      ∃ c, pyIdx t i = some c ∧ ¬(c = '.' ∨ c = '\n') :=
  seekBackF_exhausted t st ((e - st).toNat) e (Nat.le_refl _) hr

theorem cutEnd_chunkOK (t : List Char) (size start e : Int) (hsize : 0 < size)
    (hc : cutEnd t size start = Except.ok e)
    (hne : pyStrip (pySlice t start e) ≠ []) :
    chunkOK t size (pyStrip (pySlice t start e)) := by
  refine ⟨hne, start, e, rfl, ?_⟩
  unfold cutEnd at hc
  split at hc
  · rcases hb : seekBack t start (start + size) with er | e1 <;> rw [hb] at hc <;>
      dsimp only at hc
    · exact Except.noConfusion hc
    · split at hc
      · rename_i heq
        rw [heq] at hb
        refine Or.inr ⟨?_, hc⟩
        intro i h1 h2 c hic hdelim
        obtain ⟨c', hc', hnd⟩ := seekBack_exhausted t start (start + size) hb i h1 h2
        rw [hic, Option.some.injEq] at hc'
        exact hnd (hc' ▸ hdelim)
      · rw [Except.ok.injEq] at hc
        rw [hc] at hb
        have hle : e ≤ start + size := seekBackF_le t start _ _ _ hb
        have hge : start ≤ e := seekBackF_ge t start _ _ _ (by omega) hb
        have hlen : (pyStrip (pySlice t start e)).length ≤ (e - start).toNat :=
          Nat.le_trans (pyStrip_length_le _) (pySlice_length_le t start e hge)
        exact Or.inl (Nat.le_trans hlen (by omega))
  · rw [Except.ok.injEq] at hc
    have hlen : (pyStrip (pySlice t start e)).length ≤ (e - start).toNat :=
      Nat.le_trans (pyStrip_length_le _) (pySlice_length_le t start e (by omega))
    exact Or.inl (Nat.le_trans hlen (by omega))

theorem chunkLoop_sound (t : List Char) (size ov : Int) (hsize : 0 < size) :
    ∀ (fuel : Nat) (start : Int) (acc cs : List (List Char)),
      chunkLoop t size ov fuel start acc = some (Except.ok cs) →
      (∀ c ∈ acc, chunkOK t size c) →
      ∀ c ∈ cs, chunkOK t size c := by
  intro fuel
  induction fuel with
  | zero => intro start acc cs h; exact Option.noConfusion h
  | succ fuel ih =>
    intro start acc cs h hacc
    rw [chunkLoop] at h
    split at h
    · rcases hs : chunkStep t size ov start acc with er | ⟨s', a'⟩ <;> rw [hs] at h <;>
        dsimp only at h
      · rw [Option.some.injEq] at h
        exact Except.noConfusion h
      · refine ih s' a' cs h ?_
        unfold chunkStep at hs
        rcases hc : cutEnd t size start with er | e <;> rw [hc] at hs <;>
          dsimp only at hs
        · exact Except.noConfusion hs
        · rw [Except.ok.injEq, Prod.mk.injEq] at hs
          obtain ⟨_, ha'⟩ := hs
          rw [← ha']
          split
          · exact hacc
          · intro c hcmem
            rcases List.mem_append.mp hcmem with hcm | hcm
            · exact hacc c hcm
            · rw [List.mem_singleton] at hcm
              subst hcm
              exact cutEnd_chunkOK t size start e hsize hc ‹_›
    · rw [Option.some.injEq, Except.ok.injEq] at h
      subst h
      exact hacc

theorem chunkLoop_tLoop (fuel : Nat) :
    ∀ acc, chunkLoop tLoop 2 1 fuel 0 acc = none := by
  induction fuel with
  | zero => intro acc; rfl
  | succ fuel ih =>
    intro acc
    have hstep : chunkLoop tLoop 2 1 (fuel + 1) 0 acc =
        chunkLoop tLoop 2 1 fuel 0 (acc ++ [['a']]) := rfl
    rw [hstep]
    exact ih (acc ++ [['a']])

/-- C5 refuted on the code: with `chunk_size = 2 > overlap = 1 ≥ 0` and
input `"a.bb"`, every amount of fuel is exhausted — the loop cuts at the
`'.'` (position 1), sets `start = 1 - 1 = 0` again, and repeats forever,
so `chunk_text` never terminates (the spec says the loop terminates once
`start ≥ len(text)`, which is never reached). -/
theorem chunkText_nonterminating :
    (2 : Int) > 1 ∧ (1 : Int) ≥ 0 ∧
      ∀ fuel : Nat, chunkText tLoop 2 1 fuel = none :=
  ⟨by norm_num, by norm_num, fun fuel => chunkLoop_tLoop fuel []⟩

/-- C6: whenever `chunk_text` does return (some fuel suffices), every
returned chunk is a non-empty, already-stripped slice of the text
(stripping it again changes nothing), and its length is at most
`chunk_size` except when the backward window `(start, start+chunk_size]`
contained no `'.'`/newline delimiter — only then was the boundary pushed
forward to the nearest whitespace, and only then may the chunk exceed
`chunk_size`. -/
theorem chunkText_chunks (t : List Char) (size ov : Int) (fuel : Nat)
    (cs : List (List Char)) (hsize : 0 < size)
    (h : chunkText t size ov fuel = some (Except.ok cs)) :
    ∀ c ∈ cs, c ≠ [] ∧ pyStrip c = c ∧
      ∃ st e : Int, c = pyStrip (pySlice t st e) ∧
        (c.length ≤ size.toNat ∨
          (noDelimWin t st size ∧ seekFwd t (st + size) = Except.ok e)) := by
  intro c hc
  obtain ⟨hne, st, e, hcs, hdisj⟩ :=
    chunkLoop_sound t size ov hsize fuel 0 [] cs h (by simp) c hc
  exact ⟨hne, by rw [hcs, pyStrip_idem], st, e, hcs, hdisj⟩

/-- C6 witness: a terminating run on `"hi."` with `chunk_size = 10`,
`overlap = 2`, followed by the theorem's conclusion for it. -/
theorem chunkText_chunks_witness :
    ((0 : Int) < 10 ∧
      chunkText ['h', 'i', '.'] 10 2 5 = some (Except.ok [['h', 'i', '.']])) ∧
    ∀ c ∈ [['h', 'i', '.']], c ≠ [] ∧ pyStrip c = c ∧
      ∃ st e : Int, c = pyStrip (pySlice ['h', 'i', '.'] st e) ∧
        (c.length ≤ (10 : Int).toNat ∨
          (noDelimWin ['h', 'i', '.'] st 10 ∧
            seekFwd ['h', 'i', '.'] (st + 10) = Except.ok e)) :=
  ⟨⟨by decide, by decide⟩,
    chunkText_chunks ['h', 'i', '.'] 10 2 5 [['h', 'i', '.']] (by decide) (by decide)⟩

/-- C7, settled against the code: (1) an unsupported extension does yield
the structured failure result for every environment; but (2) on the
readable supported file `doc.txt` containing `"hello"` the indexing loop
raises `TypeError` out of `add_document` on the very first chunk, so
`index_document` returns `{success: false, error}` — never the claimed
`{success: true, filename, chunks_indexed}`. -/
theorem indexDocument_eval :
    (∀ (hash : List Char → Int) (fs : List Char → Option (List Char))
        (st : RagState) (fuel : Nat),
      indexDocument hash fs st ['d', 'o', 'c', '.', 'e', 'x', 'e'] fuel =
        some (Except.ok ⟨false, none, none, some IngErr.loadFailed⟩)) ∧
    indexDocument (fun _ => 0) fsHello emptyRag
        ['d', 'o', 'c', '.', 't', 'x', 't'] 3 =
      some (Except.ok ⟨false, none, none,
        some (IngErr.pyExc PyErr.typeError)⟩) ∧
    ∀ n : Nat, indexDocument (fun _ => 0) fsHello emptyRag
        ['d', 'o', 'c', '.', 't', 'x', 't'] 3 ≠
      some (Except.ok ⟨true, some ['d', 'o', 'c', '.', 't', 'x', 't'],
        some n, none⟩) := by
  have heval : indexDocument (fun _ => 0) fsHello emptyRag
      ['d', 'o', 'c', '.', 't', 'x', 't'] 3 =
    some (Except.ok ⟨false, none, none,
      some (IngErr.pyExc PyErr.typeError)⟩) := by decide
  refine ⟨fun hash fs st fuel => rfl, heval, fun n h => ?_⟩
  rw [heval] at h
  simp [IngestResult.mk.injEq] at h

end FitnessBot
